import Mathlib

/-!
Verification of the RAG core of the `ttm-rag` repository.

Shallow embedding of the Python sources under `src/rag/`:
`chunker.py`, `embeddings.py`, `vector_store.py`, `pipeline.py`,
`generation.py`, `models/registry.py`, `models/policy.py`.

Python strings are modeled as `List Char`, Python floats as `ℚ`
(the claims under study concern ordering, filtering and counting,
none of which depend on floating-point rounding), and Python dicts
as association lists.  External collaborators (the sentence-transformer
encoder, the MD5 digest, adapter backends) are abstracted as function
parameters: every claim proved here holds for an arbitrary such function.
-/

/-- Python `str`, modeled as a list of characters. -/
abbrev Str := List Char

/-- Chunk / record metadata: a Python dict, modeled as a key/value list. -/
abbrev Metadata := List (Str × Str)

/-- An embedding vector (`np.ndarray`), modeled as a list of rationals. -/
abbrev Vec := List ℚ

/-- `DocumentChunk` from `src/rag/chunker.py`. -/
structure DocumentChunk where
  chunk_id : Str
  document_id : Str
  content : Str
  chunk_index : Nat
  start_char : Nat
  end_char : Nat
  metadata : Metadata
deriving DecidableEq, Repr

/-- `ChunkConfig` from `src/rag/chunker.py` (defaults as in the source). -/
structure ChunkConfig where
  chunk_size : Nat := 512
  chunk_overlap : Nat := 50
  min_chunk_size : Nat := 100
  preserve_sentences : Bool := true
deriving DecidableEq, Repr

/-- `DocumentChunk.generate_id`: `f"{document_id}_{chunk_index}_{md5(content)[:8]}"`.
The MD5 hex digest is abstracted as the function parameter `digest`;
the `[:8]` truncation of the source is kept explicit. -/
def generate_id (digest : Str → Str) (c : DocumentChunk) : Str :=
  c.document_id ++ ('_' :: (Nat.repr c.chunk_index).toList)
    ++ ('_' :: (digest c.content).take 8)

/-- Whitespace collapsing of `_normalize_text`: `re.sub(r"\s+", " ", text)`,
replacing every maximal whitespace run by a single space (a whitespace
character is dropped when followed by more whitespace, and becomes the
single `' '` of its run otherwise). -/
def collapseWS : Str → Str
  | [] => []
  | [c] => if c.isWhitespace then [' '] else [c]
  | c :: d :: rest =>
    if c.isWhitespace then
      if d.isWhitespace then collapseWS (d :: rest)
      else ' ' :: collapseWS (d :: rest)
    else c :: collapseWS (d :: rest)

/-- Python `str.strip()`. -/
def strip (t : Str) : Str :=
  ((t.dropWhile Char.isWhitespace).reverse.dropWhile Char.isWhitespace).reverse

/-- `DocumentChunker._normalize_text`: collapse whitespace runs, then strip. -/
def normalize_text (t : Str) : Str := strip (collapseWS t)

/-- Sentence-terminal punctuation class of `_split_sentences`
(`[.!?।။។]`; the source writes some characters repeatedly). -/
def isSentenceEnd (c : Char) : Bool :=
  c = '.' || c = '!' || c = '?' || c = '।' || c = '။' || c = '។'

/-- `re.split('([.!?।။។])', text)` with one capture group: returns the
(piece, delimiter) pairs and the trailing piece. -/
def splitPunct : Str → List (Str × Char) × Str
  | [] => ([], [])
  | c :: rest =>
    let r := splitPunct rest
    if isSentenceEnd c then (([], c) :: r.1, r.2)
    else
      match r with
      | ([], last) => ([], c :: last)
      | ((p, d) :: ps, last) => ((c :: p, d) :: ps, last)

/-- `DocumentChunker._split_sentences`: recombine each piece with its
delimiter, strip, drop empties, append the stripped trailing piece,
and fall back to `[text]` when nothing remains. -/
def split_sentences (t : Str) : List Str :=
  let r := splitPunct t
  let body := (r.1.map (fun pd => strip (pd.1 ++ [pd.2]))).filter (fun s => s ≠ [])
  let result := body ++ (if strip r.2 ≠ [] then [strip r.2] else [])
  if result = [] then [t] else result

/-- Python `' '.join(parts)`. -/
def joinSp : List Str → Str
  | [] => []
  | [s] => s
  | s :: s' :: rest => s ++ ' ' :: joinSp (s' :: rest)

/-- Loop state of `DocumentChunker._chunk_sentences`
(`chunks`, `current_chunk`, `current_size`, `chunk_index`, `char_offset`). -/
structure SentState where
  chunks : List DocumentChunk
  current : List Str
  size : Nat
  idx : Nat
  offset : Nat

/-- The id-setting idiom of the source: build the chunk with an empty id,
then assign `chunk.chunk_id = chunk.generate_id()`. -/
def withId (digest : Str → Str) (c0 : DocumentChunk) : DocumentChunk :=
  { c0 with chunk_id := generate_id digest c0 }

/-- Overlap retention of `_chunk_sentences`: keep the last up-to-two
sentences (`current_chunk[-2:]`) when overlap is positive and their joined
length fits `chunk_overlap * 2`, else start empty.  The retained
`current_size` is the joined length of the seed (0 for the empty seed). -/
def overlapSeed (cfg : ChunkConfig) (current : List Str) : List Str :=
  if 0 < cfg.chunk_overlap then
    if (joinSp (current.drop (current.length - 2))).length
        ≤ cfg.chunk_overlap * 2 then
      current.drop (current.length - 2)
    else []
  else []

/-- Chunk-emission step of `_chunk_sentences`: close the current chunk,
then retain the overlap seed. -/
def closeChunk (cfg : ChunkConfig) (digest : Str → Str) (docId : Str)
    (meta : Metadata) (st : SentState) : SentState :=
  { chunks := st.chunks ++ [withId digest
      ⟨[], docId, joinSp st.current, st.idx, st.offset,
        st.offset + (joinSp st.current).length, meta⟩],
    current := overlapSeed cfg st.current,
    size := (joinSp (overlapSeed cfg st.current)).length,
    idx := st.idx + 1,
    offset := st.offset + (joinSp st.current).length }

/-- One iteration of the sentence loop of `_chunk_sentences`: close the
chunk when adding the sentence would exceed `chunk_size` (and the
accumulator is non-empty), then append the sentence. -/
def sentStep (cfg : ChunkConfig) (digest : Str → Str) (docId : Str)
    (meta : Metadata) (st : SentState) (s : Str) : SentState :=
  let st1 :=
    if cfg.chunk_size < st.size + s.length ∧ st.current ≠ [] then
      closeChunk cfg digest docId meta st
    else st
  { st1 with current := st1.current ++ [s], size := st1.size + s.length + 1 }

/-- Final-chunk emission of `_chunk_sentences`: the remaining accumulator
becomes a last chunk only when it reaches `min_chunk_size`. -/
def finalizeSent (cfg : ChunkConfig) (digest : Str → Str) (docId : Str)
    (meta : Metadata) (st : SentState) : List DocumentChunk :=
  if st.current ≠ [] then
    if cfg.min_chunk_size ≤ (joinSp st.current).length then
      st.chunks ++ [withId digest
        ⟨[], docId, joinSp st.current, st.idx, st.offset,
          st.offset + (joinSp st.current).length, meta⟩]
    else st.chunks
  else st.chunks

/-- `DocumentChunker._chunk_sentences`: fold the sentence loop, then emit
the remaining accumulator as a final chunk only when it reaches
`min_chunk_size`. -/
def chunk_sentences (cfg : ChunkConfig) (digest : Str → Str) (docId : Str)
    (meta : Metadata) (sentences : List Str) : List DocumentChunk :=
  finalizeSent cfg digest docId meta
    (sentences.foldl (sentStep cfg digest docId meta) ⟨[], [], 0, 0, 0⟩)

/-- `DocumentChunker._chunk_by_characters`: fixed windows starting at the
multiples of `chunk_size - chunk_overlap`, keeping only windows of at
least `min_chunk_size` characters (faithful for a positive stride, the
only case in which the Python `range` call is defined). -/
def chunk_by_characters (cfg : ChunkConfig) (digest : Str → Str) (docId : Str)
    (meta : Metadata) (t : Str) : List DocumentChunk :=
  let stride := cfg.chunk_size - cfg.chunk_overlap
  let starts := (List.range t.length).filter (fun i => i % stride = 0)
  let kept := starts.filterMap (fun i =>
    if cfg.min_chunk_size ≤ ((t.drop i).take cfg.chunk_size).length then
      some (i, (t.drop i).take cfg.chunk_size)
    else none)
  kept.enum.map (fun jc =>
    withId digest ⟨[], docId, jc.2.2, jc.1, jc.2.1, jc.2.1 + jc.2.2.length, meta⟩)

/-- `DocumentChunker.chunk_text`: empty text yields no chunks; otherwise
normalize, then chunk by sentences or by characters per configuration. -/
def chunk_text (cfg : ChunkConfig) (digest : Str → Str) (text : Str)
    (document_id : Str) (metadata : Metadata) : List DocumentChunk :=
  if text = [] then []
  else
    let t := normalize_text text
    if cfg.preserve_sentences then
      chunk_sentences cfg digest document_id metadata (split_sentences t)
    else
      chunk_by_characters cfg digest document_id metadata t

/-! Embedding generator (`src/rag/embeddings.py`).  The sentence-transformer
encoder is abstracted as a parameter `embed : Str → Vec`; for a fixed model
configuration the encoder is deterministic, and `generate_embeddings_batch`
is element-wise `model.encode`, i.e. `List.map embed`. -/

/-- The embedding cache (`self.embedding_cache`), a dict keyed by `chunk_id`. -/
abbrev Cache := List (Str × Vec)

/-- Python dict lookup (`cache[key]` / `key in cache`). -/
def cacheLookup : Cache → Str → Option Vec
  | [], _ => none
  | (k, v) :: rest, key => if k = key then some v else cacheLookup rest key

/-- Python dict insertion: overwrite the binding when the key is present,
append otherwise. -/
def dictInsert : Cache → Str → Vec → Cache
  | [], k, v => [(k, v)]
  | (k', v') :: rest, k, v =>
    if k' = k then (k, v) :: rest else (k', v') :: dictInsert rest k v

/-- Cache-hit test of `embed_chunks`:
`self.config.cache_embeddings and chunk.chunk_id in self.embedding_cache`. -/
def isCacheHit (cacheEmbeddings : Bool) (cache : Cache) (c : DocumentChunk) : Bool :=
  cacheEmbeddings && ((cacheLookup cache c.chunk_id).isSome)

/-- Observable outcome of one `embed_chunks` call: the returned
`(chunk, embedding)` pairs, the cache after the call, and the list of
chunk ids whose content was sent to `generate_embeddings_batch`
(`chunks_to_embed` in the source), i.e. the embeddings actually computed. -/
structure EmbedOutput where
  results : List (DocumentChunk × Vec)
  cache : Cache
  computedIds : List Str

/-- `EmbeddingGenerator.embed_chunks`: cache hits are served from the cache
in input order, then the misses are embedded in batch, appended in input
order, and (when caching is enabled) inserted into the cache. -/
def embed_chunks (cacheEmbeddings : Bool) (embed : Str → Vec)
    (cache : Cache) (chunks : List DocumentChunk) : EmbedOutput :=
  let hits := chunks.filter (fun c => isCacheHit cacheEmbeddings cache c)
  let misses := chunks.filter (fun c => !(isCacheHit cacheEmbeddings cache c))
  { results := hits.map (fun c => (c, (cacheLookup cache c.chunk_id).getD []))
      ++ misses.map (fun c => (c, embed c.content)),
    cache :=
      if cacheEmbeddings then
        misses.foldl (fun cc c => dictInsert cc c.chunk_id (embed c.content)) cache
      else cache,
    computedIds := misses.map (fun c => c.chunk_id) }

/-- `EmbeddingGenerator.clear_cache`. -/
def clear_cache : Cache := []

/-- A sequence of `embed_chunks` calls on one generator (caching enabled,
no `clear_cache` in between): threads the cache and concatenates the
lists of computed chunk ids. -/
def embedCalls (embed : Str → Vec) : Cache → List (List DocumentChunk) → Cache × List Str
  | cache, [] => (cache, [])
  | cache, cs :: rest =>
    let out := embed_chunks true embed cache cs
    let r := embedCalls embed out.cache rest
    (r.1, out.computedIds ++ r.2)

/-- The duplicate-free proviso along a run of `embed_chunks` calls: each
call's newly embedded chunk ids — its misses with respect to the cache at
that call's start — contain no duplicates.  Repeating a chunk id that is
already cached when the call starts is allowed. -/
def callsMissNodup (embed : Str → Vec) : Cache → List (List DocumentChunk) → Bool
  | _, [] => true
  | cache, cs :: rest =>
    decide ((embed_chunks true embed cache cs).computedIds.Nodup)
      && callsMissNodup embed (embed_chunks true embed cache cs).cache rest

/-- Python `list.sort(key=lambda x: x[1], reverse=True)`: a stable sort,
descending in the score component. -/
def sortByScoreDesc {α : Type} (l : List (α × ℚ)) : List (α × ℚ) :=
  l.mergeSort (fun a b => decide (b.2 ≤ a.2))

/-- `EmbeddingGenerator.calculate_similarity` for a generator configured
with `normalize_embeddings=True`: a plain dot product. -/
def dotSim (v w : Vec) : ℚ := ((v.zipWith (· * ·) w).foldr (· + ·) 0)

/-- `EmbeddingGenerator.find_similar_chunks`: score every candidate with
`calculate_similarity` (abstracted as `sim`), sort descending, truncate to
`top_k`. -/
def find_similar_chunks (sim : Vec → Vec → ℚ) (query_embedding : Vec)
    (chunk_embeddings : List (DocumentChunk × Vec)) (top_k : Nat) :
    List (DocumentChunk × ℚ) :=
  (sortByScoreDesc (chunk_embeddings.map (fun ce => (ce.1, sim query_embedding ce.2)))).take top_k

/-! Vector store (`src/rag/vector_store.py`), brute-force fallback path of
`similarity_search` (the required baseline; the pgvector path is an optional
performance layer reached only when the extension is installed). -/

/-- A stored `chunk_embeddings` row (`ChunkEmbedding`), in insertion order. -/
structure ChunkRecord where
  chunk_id : Str
  document_id : Str
  content : Str
  chunk_index : Nat
  start_char : Nat
  end_char : Nat
  metadata : Metadata
  embedding : Vec
deriving DecidableEq, Repr

/-- The `DocumentChunk` reconstructed from a stored row. -/
def toChunk (r : ChunkRecord) : DocumentChunk :=
  ⟨r.chunk_id, r.document_id, r.content, r.chunk_index, r.start_char,
    r.end_char, r.metadata⟩

/-- `VectorStore.similarity_search`, numpy fallback path: score every stored
record with `_cosine_similarity` (abstracted as `sim`), sort descending by
score (Python stable sort), truncate to `top_k`.  The `filter_metadata`
argument is accepted and ignored, exactly as in the source, which never
reads it. -/
def similarity_search (sim : Vec → Vec → ℚ) (store : List ChunkRecord)
    (query_embedding : Vec) (top_k : Nat) (filter_metadata : Option Metadata) :
    List (DocumentChunk × ℚ) :=
  let _ := filter_metadata
  (sortByScoreDesc (store.map (fun r => (toChunk r, sim query_embedding r.embedding)))).take top_k

/-! Pipeline (`src/rag/pipeline.py`) and default generation
(`src/rag/generation.py`). -/

/-- `RAGConfig` retrieval fields (defaults as in the source). -/
structure RAGConfig where
  top_k : Nat := 5
  similarity_threshold : ℚ := 3 / 10
deriving DecidableEq, Repr

/-- `RAGPipeline.retrieve`: embed the query (`embedQuery` abstracts
`generate_embedding`), search the store, then keep only results whose score
meets `similarity_threshold`.  Python `top_k or self.config.top_k` treats
both `None` and `0` as absent. -/
def retrieve (cfg : RAGConfig) (sim : Vec → Vec → ℚ) (embedQuery : Str → Vec)
    (store : List ChunkRecord) (query : Str) (top_k : Option Nat)
    (filter_metadata : Option Metadata) : List (DocumentChunk × ℚ) :=
  let k := match top_k with
    | none => cfg.top_k
    | some k => if k = 0 then cfg.top_k else k
  let results := similarity_search sim store (embedQuery query) k filter_metadata
  results.filter (fun p => cfg.similarity_threshold ≤ p.2)

/-- A `context` entry of the query response
(`{"content", "score", "document_id", "chunk_index"}`). -/
structure ContextEntry where
  content : Str
  score : ℚ
  document_id : Str
  chunk_index : Nat
deriving DecidableEq, Repr

/-- Context assembly of `RAGPipeline.query`: one entry per retrieved result,
in order. -/
def queryContext (results : List (DocumentChunk × ℚ)) : List ContextEntry :=
  results.map (fun p => ⟨p.1.content, p.2, p.1.document_id, p.1.chunk_index⟩)

/-! Model adapter registry (`src/rag/models/registry.py`), policy selector
(`src/rag/models/policy.py`), and the generation branch of
`RAGPipeline.query`.  Adapter ids and answers live at the registry boundary
and are modeled as Lean `String`s. -/

/-- `_ADAPTER_CLASS_PATHS`: adapter id to class path. -/
def _ADAPTER_CLASS_PATHS : List (String × String) :=
  [("hf-typhoon-7b", "src.rag.models.hf_adapter.TyphoonHFAdapter"),
   ("openai-gpt-4o-mini", "src.rag.models.openai_adapter.OpenAIAdapter"),
   ("qwen3-code", "src.rag.models.qwen_adapter.QwenCodeAdapter")]

/-- `registry.get_adapter`: the class path for a registered id, or the
`ValueError(f"Unknown adapter id: {adapter_id}")` raised for an
unregistered one. -/
def get_adapter (adapter_id : String) : Except String String :=
  match _ADAPTER_CLASS_PATHS.lookup adapter_id with
  | some classPath => Except.ok classPath
  | none => Except.error ("Unknown adapter id: " ++ adapter_id)

/-- `TextGenerator.generate_answer`, the default text assembler: a fixed
no-context message, or a summary header over the joined context contents
(the query only feeds a prompt that the placeholder implementation does
not use). -/
def generate_answer (query : String) (contents : List String) : String :=
  let _ := query
  if contents.isEmpty then
    "I could not find any relevant information to answer your question."
  else
    "Based on the retrieved context, here is a summary:\n\n"
      ++ String.intercalate "\n\n" contents

/-- The `elif model:` generation branch of `RAGPipeline.query` (non-agentic,
no policy): a falsy (`None` or empty) model id uses the default assembler;
otherwise `get_adapter` runs inside `try`, its answer is used on success,
and ANY exception — including the unknown-adapter `ValueError` — is caught,
logged, and replaced by the default assembler's answer. -/
def queryAnswer (adapterGen : String → String) (query : String)
    (contents : List String) (model : Option String) : String :=
  match model with
  | none => generate_answer query contents
  | some m =>
    if m = "" then generate_answer query contents
    else
      match get_adapter m with
      | Except.ok classPath => adapterGen classPath
      | Except.error _ => generate_answer query contents

/-- `_AVAILABLE_MODELS`: (id, provider) of the static catalog. -/
def _AVAILABLE_MODELS : List (String × String) :=
  [("hf-typhoon-7b", "huggingface"),
   ("openai-gpt-4o-mini", "openai"),
   ("qwen3-code", "qwen")]

/-- `_DEFAULT_COSTS`: static cost table (USD per call). -/
def _DEFAULT_COSTS : List (String × ℚ) :=
  [("hf-typhoon-7b", 0),
   ("openai-gpt-4o-mini", 3 / 1000),
   ("qwen3-code", 0)]

/-- `ModelPolicySelector.get_cost` with the default cost table. -/
def get_cost (model_id : String) : ℚ :=
  (_DEFAULT_COSTS.lookup model_id).getD 0

/-- `select_model` constraints (`allow_external`, `max_cost_per_call`). -/
structure Constraints where
  allow_external : Bool := false
  max_cost_per_call : Option ℚ := none

/-- Provider of a cataloged id (`self._by_id[mid].get("provider")`). -/
def providerOf (model_id : String) : String :=
  (_AVAILABLE_MODELS.lookup model_id).getD ""

/-- `ModelPolicySelector.select_model` for the default-constructed selector
(static catalog, default cost table, default id `hf-typhoon-7b`): filter by
external allowance and budget, then Thai-language bias, clinician-persona
bias, fixed preference order, and finally the configured default. -/
def select_model (persona : Option String) (language : Option String)
    (constraints : Constraints) : String :=
  let candidates := _AVAILABLE_MODELS.map (fun m => m.1)
  let candidates :=
    if constraints.allow_external then candidates
    else candidates.filter (fun mid => providerOf mid ≠ "openai")
  let candidates :=
    match constraints.max_cost_per_call with
    | some maxCost => candidates.filter (fun mid => get_cost mid ≤ maxCost)
    | none => candidates
  let lang := (language.getD "").toLower
  if (lang = "th" ∨ lang = "mixed") ∧ "hf-typhoon-7b" ∈ candidates then
    "hf-typhoon-7b"
  else if persona = some "clinician" ∧ constraints.allow_external
      ∧ "openai-gpt-4o-mini" ∈ candidates then
    "openai-gpt-4o-mini"
  else
    match ["hf-typhoon-7b", "qwen3-code", "openai-gpt-4o-mini"].find?
        (fun pref => pref ∈ candidates) with
    | some pref => pref
    | none => "hf-typhoon-7b"

/-! Concrete fixtures used by witnesses and counterexamples. -/

/-- A concrete stand-in for the MD5 hex digest in concrete evaluations. -/
def digW : Str → Str := fun _ => "0123456789abcdef".toList

/-- A small sentence-mode configuration for concrete evaluations. -/
def cfgW : ChunkConfig :=
  { chunk_size := 10, chunk_overlap := 2, min_chunk_size := 1 }

/-- A concrete stand-in for the embedding encoder in concrete evaluations. -/
def embedW : Str → Vec := fun _ => [1]

/-- A concrete chunk with `chunk_id` `"x"`. -/
def chunkW : DocumentChunk :=
  ⟨"x".toList, "d".toList, "t".toList, 0, 0, 1, []⟩

/-- A concrete chunk whose id is cached in `cacheW`. -/
def chunkHitW : DocumentChunk :=
  ⟨"h1".toList, "d".toList, "hit".toList, 0, 0, 3, []⟩

/-- A concrete chunk whose id is not cached in `cacheW`. -/
def chunkMissW : DocumentChunk :=
  ⟨"m1".toList, "d".toList, "miss".toList, 1, 3, 7, []⟩

/-- A concrete cache holding an embedding for `chunkHitW` only. -/
def cacheW : Cache := [("h1".toList, [2])]

/-- A concrete stored record whose metadata is `{"source_type": "web"}`. -/
def recordW : ChunkRecord :=
  ⟨"c1-id".toList, "doc1".toList, "turmeric".toList, 0, 0, 8,
    [("source_type".toList, "web".toList)], [1]⟩

/-! Theorems settling the claims. -/

/-- C1: the claim states that `similarity_search` with a non-empty
`filter_metadata` returns only records whose metadata contains every given
key/value pair, and that filtering by a pair held by no record returns the
empty list.  The source never reads `filter_metadata`, contradicting both
its own docstring and the repository's unit test
`tests/unit/rag/test_vector_store_filters.py` (which asserts
`res3 == []` for a filter value held by no record): searching a store whose
single record's metadata is `{"source_type": "web"}` with the filter
`{"source_type": "unknown"}` returns that record instead of the empty
list. -/
theorem C1_filter_metadata_ignored :
    similarity_search dotSim [recordW] [1] 10
        (some [("source_type".toList, "unknown".toList)])
      = [(toChunk recordW, 1)]
    ∧ ("source_type".toList, "unknown".toList) ∉ recordW.metadata
    ∧ similarity_search dotSim [recordW] [1] 10
        (some [("source_type".toList, "unknown".toList)]) ≠ [] := by
  have h : similarity_search dotSim [recordW] [1] 10
      (some [("source_type".toList, "unknown".toList)])
      = [(toChunk recordW, 1)] := by
    simp [similarity_search, sortByScoreDesc, recordW, toChunk, dotSim]
  refine ⟨h, by decide, by rw [h]; simp⟩

/-- C2 counterexample: calling the generation branch of `RAGPipeline.query`
with the unregistered model id `"no-such-model"` does not surface the
unknown-adapter error: the `except` clause replaces it with the default
text assembler's answer, even though `get_adapter` did raise. -/
theorem C2_unknown_model_falls_back :
    get_adapter "no-such-model"
      = Except.error "Unknown adapter id: no-such-model"
    ∧ queryAnswer (fun p => "ADAPTER:" ++ p) "q" [] (some "no-such-model")
      = generate_answer "q" []
    ∧ generate_answer "q" []
      = "I could not find any relevant information to answer your question." := by
  refine ⟨rfl, rfl, rfl⟩

/-- C2 amended: `get_adapter` itself fails fast with the descriptive
`Unknown adapter id` error for every unregistered id, but `RAGPipeline.query`
catches that error and silently falls back to the default text assembler
for this failure mode (the error is logged, not surfaced to the caller). -/
theorem C2_amended_unknown_adapter_caught (m : String)
    (hm : _ADAPTER_CLASS_PATHS.lookup m = none) (hne : m ≠ "") :
    get_adapter m = Except.error ("Unknown adapter id: " ++ m)
    ∧ ∀ (adapterGen : String → String) (query : String) (contents : List String),
        queryAnswer adapterGen query contents (some m)
          = generate_answer query contents := by
  have hga : get_adapter m = Except.error ("Unknown adapter id: " ++ m) := by
    unfold get_adapter
    rw [hm]
  refine ⟨hga, ?_⟩
  intro adapterGen query contents
  simp only [queryAnswer, if_neg hne, hga]

/-- C2 amended, witness at the concrete unregistered id `"no-such-model"`. -/
theorem C2_amended_witness :
    get_adapter "no-such-model"
      = Except.error ("Unknown adapter id: " ++ "no-such-model")
    ∧ queryAnswer (fun p => p) "q" ["ctx"] (some "no-such-model")
      = generate_answer "q" ["ctx"] := by
  have h := C2_amended_unknown_adapter_caught "no-such-model" (by decide) (by decide)
  exact ⟨h.1, h.2 (fun p => p) "q" ["ctx"]⟩

/-- C9: under the static catalog and default cost table, `select_model`
with constraints `{allow_external: true, max_cost_per_call: 0.0}` never
returns an adapter costing more than 0.0, for every persona and language:
the budget filter removes the only priced adapter, both biased branches and
the preference order then pick the cost-free `hf-typhoon-7b`, and the
fallback-to-default id is that same cost-free adapter, so the fallback step
cannot violate the budget either. -/
theorem C9_zero_budget_cost (persona language : Option String) :
    get_cost (select_model persona language ⟨true, some 0⟩) ≤ 0 := by
  have hpos : ¬ ((3 : ℚ)/1000 ≤ 0) := by norm_num
  have hsel : select_model persona language ⟨true, some 0⟩ = "hf-typhoon-7b" := by
    by_cases hl : (((language.getD "").toLower = "th")
        ∨ ((language.getD "").toLower = "mixed"))
    · rcases hl with h | h <;>
        simp [select_model, h, _AVAILABLE_MODELS, get_cost, _DEFAULT_COSTS,
          List.lookup, hpos, List.find?]
    · push_neg at hl
      simp [select_model, hl.1, hl.2, _AVAILABLE_MODELS, get_cost, _DEFAULT_COSTS,
        List.lookup, hpos, List.find?]
  rw [hsel]
  simp [get_cost, _DEFAULT_COSTS, List.lookup]

/-- C3: every `(chunk, score)` pair returned by `RAGPipeline.retrieve`, and
hence every context entry assembled from those results in
`RAGPipeline.query`, has score at least the configured
`similarity_threshold`. -/
theorem C3_threshold_filter (cfg : RAGConfig) (sim : Vec → Vec → ℚ)
    (embedQuery : Str → Vec) (store : List ChunkRecord) (query : Str)
    (top_k : Option Nat) (fm : Option Metadata) :
    (∀ p ∈ retrieve cfg sim embedQuery store query top_k fm,
        cfg.similarity_threshold ≤ p.2)
    ∧ ∀ e ∈ queryContext (retrieve cfg sim embedQuery store query top_k fm),
        cfg.similarity_threshold ≤ e.score := by
  constructor
  · intro p hp
    have := List.of_mem_filter hp
    exact of_decide_eq_true this
  · intro e he
    obtain ⟨p, hp, rfl⟩ := List.mem_map.mp he
    have := List.of_mem_filter hp
    exact of_decide_eq_true this

/-- C3, witness on a one-record store with the default configuration. -/
theorem C3_threshold_filter_witness :
    ({} : RAGConfig).similarity_threshold ≤ (1 : ℚ) := by
  have hres : retrieve {} dotSim (fun _ => [1]) [recordW] "q".toList none none
      = [(toChunk recordW, 1)] := by
    simp [retrieve, similarity_search, sortByScoreDesc, dotSim, recordW, toChunk]
    norm_num
  exact (C3_threshold_filter {} dotSim (fun _ => [1]) [recordW]
      "q".toList none none).1 (toChunk recordW, 1) (by rw [hres]; simp)
open List in
theorem sortByScoreDesc_trans {α : Type} :
    ∀ (a b c : α × ℚ), (fun a b : α × ℚ => decide (b.2 ≤ a.2)) a b →
      (fun a b : α × ℚ => decide (b.2 ≤ a.2)) b c →
      (fun a b : α × ℚ => decide (b.2 ≤ a.2)) a c := by
  intro a b c hab hbc
  simp only [decide_eq_true_eq] at *
  exact le_trans hbc hab

theorem sortByScoreDesc_total {α : Type} :
    ∀ (a b : α × ℚ), ((fun a b : α × ℚ => decide (b.2 ≤ a.2)) a b
      || (fun a b : α × ℚ => decide (b.2 ≤ a.2)) b a) := by
  intro a b
  simp only [Bool.or_eq_true, decide_eq_true_eq]
  exact le_total b.2 a.2

theorem sortByScoreDesc_pairwise {α : Type} (l : List (α × ℚ)) :
    (sortByScoreDesc l).Pairwise (fun a b => b.2 ≤ a.2) := by
  have h := List.sorted_mergeSort sortByScoreDesc_trans sortByScoreDesc_total l
  exact h.imp (fun hab => of_decide_eq_true hab)

open List in
theorem sortByScoreDesc_perm {α : Type} (l : List (α × ℚ)) :
    sortByScoreDesc l ~ l :=
  List.mergeSort_perm l _

open List in
theorem sortByScoreDesc_filter_eq {α : Type} (l : List (α × ℚ)) (s : ℚ) :
    (sortByScoreDesc l).filter (fun p => p.2 = s)
      = l.filter (fun p => p.2 = s) := by
  have hsub : l.filter (fun p => decide (p.2 = s)) <+ sortByScoreDesc l := by
    apply List.sublist_mergeSort sortByScoreDesc_trans sortByScoreDesc_total
    · rw [List.pairwise_iff_forall_sublist]
      intro a b hab
      have ha := List.of_mem_filter (hab.subset (List.mem_cons_self a [b]))
      have hb := List.of_mem_filter (hab.subset (by simp : b ∈ [a, b]))
      simp only [decide_eq_true_eq] at ha hb ⊢
      rw [ha, hb]
    · exact List.filter_sublist l
  have hsub2 : l.filter (fun p => decide (p.2 = s))
      <+ (sortByScoreDesc l).filter (fun p => decide (p.2 = s)) := by
    have := hsub.filter (fun p => decide (p.2 = s))
    rwa [List.filter_filter, (by simp : (fun (p : α × ℚ) =>
      decide (p.2 = s) && decide (p.2 = s)) = fun p => decide (p.2 = s))] at this
  have hlen : (l.filter (fun p => decide (p.2 = s))).length
      = ((sortByScoreDesc l).filter (fun p => decide (p.2 = s))).length :=
    (((sortByScoreDesc_perm l).filter _).length_eq).symm
  exact (hsub2.eq_of_length hlen).symm
/-- C4: the brute-force fallback of `similarity_search` returns a list
sorted descending by similarity score, obtained by a stable sort of the
scored records in storage order (ties keep insertion order: for every
score value, the tied entries appear exactly as in the stored sequence)
and truncated to at most `top_k` elements; `find_similar_chunks` satisfies
the same descending order and `top_k` truncation. -/
theorem C4_search_sorted_desc (sim : Vec → Vec → ℚ) (q : Vec)
    (store : List ChunkRecord) (k : Nat) (fm : Option Metadata)
    (ces : List (DocumentChunk × Vec)) :
    (similarity_search sim store q k fm).Pairwise (fun a b => b.2 ≤ a.2)
    ∧ (similarity_search sim store q k fm).length ≤ k
    ∧ (∃ full : List (DocumentChunk × ℚ),
        similarity_search sim store q k fm = full.take k
        ∧ full.Perm (store.map (fun r => (toChunk r, sim q r.embedding)))
        ∧ full.Pairwise (fun a b => b.2 ≤ a.2)
        ∧ ∀ s : ℚ, full.filter (fun p => p.2 = s)
            = (store.map (fun r => (toChunk r, sim q r.embedding))).filter
                (fun p => p.2 = s))
    ∧ (find_similar_chunks sim q ces k).Pairwise (fun a b => b.2 ≤ a.2)
    ∧ (find_similar_chunks sim q ces k).length ≤ k := by
  refine ⟨?_, ?_,
    ⟨sortByScoreDesc (store.map (fun r => (toChunk r, sim q r.embedding))),
      rfl, sortByScoreDesc_perm _, sortByScoreDesc_pairwise _,
      fun s => sortByScoreDesc_filter_eq _ s⟩, ?_, ?_⟩
  · exact (sortByScoreDesc_pairwise _).sublist (List.take_sublist _ _)
  · simp only [similarity_search, List.length_take]
    omega
  · exact (sortByScoreDesc_pairwise _).sublist (List.take_sublist _ _)
  · simp only [find_similar_chunks, List.length_take]
    omega
theorem cacheLookup_dictInsert : ∀ (cache : Cache) (k : Str) (v : Vec) (key : Str),
    cacheLookup (dictInsert cache k v) key
      = if key = k then some v else cacheLookup cache key
  | [], k, v, key => by
    simp only [dictInsert, cacheLookup]
    by_cases h : key = k
    · subst h; simp
    · rw [if_neg (fun hh : k = key => h hh.symm), if_neg h]
  | (kk, vv) :: rest, k, v, key => by
    simp only [dictInsert]
    by_cases h1 : kk = k
    · subst h1
      simp only [if_pos rfl, cacheLookup]
      by_cases h2 : kk = key
      · subst h2; simp
      · rw [if_neg h2, if_neg (fun hh : key = kk => h2 hh.symm), if_neg h2]
    · rw [if_neg h1]
      simp only [cacheLookup]
      by_cases h2 : kk = key
      · subst h2
        rw [if_pos rfl, if_neg (fun hh : kk = k => h1 hh), if_pos rfl]
      · rw [if_neg h2, cacheLookup_dictInsert rest k v key]
        by_cases h3 : key = k
        · rw [if_pos h3, if_pos h3]
        · rw [if_neg h3, if_neg h3, if_neg h2]
theorem cacheLookup_insFold (embed : Str → Vec) :
    ∀ (ms : List DocumentChunk) (cache : Cache) (key : Str),
      (cacheLookup
        (ms.foldl (fun cc c => dictInsert cc c.chunk_id (embed c.content)) cache)
        key).isSome
      ↔ (cacheLookup cache key).isSome ∨ key ∈ ms.map (fun c => c.chunk_id) := by
  intro ms
  induction ms with
  | nil => simp
  | cons c ms ih =>
    intro cache key
    simp only [List.foldl_cons, List.map_cons, List.mem_cons]
    rw [ih, cacheLookup_dictInsert]
    by_cases h : key = c.chunk_id
    · simp [h]
    · simp [h]

theorem embed_chunks_computedIds (b : Bool) (embed : Str → Vec) (cache : Cache)
    (chunks : List DocumentChunk) :
    (embed_chunks b embed cache chunks).computedIds
      = (chunks.filter (fun c => !(isCacheHit b cache c))).map
          (fun c => c.chunk_id) := rfl

theorem embed_chunks_computed_not_cached (embed : Str → Vec) (cache : Cache)
    (chunks : List DocumentChunk) :
    ∀ key ∈ (embed_chunks true embed cache chunks).computedIds,
      ¬ (cacheLookup cache key).isSome := by
  intro key hkey
  rw [embed_chunks_computedIds] at hkey
  obtain ⟨c, hc, rfl⟩ := List.mem_map.mp hkey
  have hfil := List.of_mem_filter hc
  intro hsome
  have hhit : isCacheHit true cache c = true := by simp [isCacheHit, hsome]
  rw [hhit] at hfil
  simp at hfil

theorem embed_chunks_cache_isSome (embed : Str → Vec) (cache : Cache)
    (chunks : List DocumentChunk) (key : Str) :
    (cacheLookup (embed_chunks true embed cache chunks).cache key).isSome
      ↔ (cacheLookup cache key).isSome
        ∨ key ∈ (embed_chunks true embed cache chunks).computedIds := by
  rw [embed_chunks_computedIds]
  show (cacheLookup (List.foldl _ cache _) key).isSome ↔ _
  rw [cacheLookup_insFold embed _ cache key]

theorem embedCalls_nodup (embed : Str → Vec) :
    ∀ (calls : List (List DocumentChunk)) (cache : Cache),
      callsMissNodup embed cache calls = true →
      (embedCalls embed cache calls).2.Nodup
      ∧ ∀ key ∈ (embedCalls embed cache calls).2,
          ¬ (cacheLookup cache key).isSome := by
  intro calls
  induction calls with
  | nil => simp [embedCalls]
  | cons cs rest ih =>
    intro cache hnd
    simp only [callsMissNodup, Bool.and_eq_true, decide_eq_true_eq] at hnd
    obtain ⟨hids1, hrest⟩ := hnd
    obtain ⟨ih1, ih2⟩ := ih (embed_chunks true embed cache cs).cache hrest
    constructor
    · apply List.Nodup.append hids1 ih1
      intro key h1 h2
      exact ih2 key h2
        ((embed_chunks_cache_isSome embed cache cs key).mpr (Or.inr h1))
    · intro key hkey
      rcases List.mem_append.mp hkey with h1 | h2
      · exact embed_chunks_computed_not_cached embed cache cs key h1
      · intro hsome
        exact ih2 key h2
          ((embed_chunks_cache_isSome embed cache cs key).mpr (Or.inl hsome))
/-- C8 counterexample: one `embed_chunks` call whose input repeats an
uncached chunk embeds it twice — two embeddings are computed for a single
distinct `chunk_id` in one generator lifetime with caching enabled and no
`clear_cache` call. -/
theorem C8_duplicate_embedded_twice :
    (embed_chunks true embedW clear_cache [chunkW, chunkW]).computedIds
      = ["x".toList, "x".toList]
    ∧ ¬ (embed_chunks true embedW clear_cache [chunkW, chunkW]).computedIds.Nodup := by
  constructor
  · rfl
  · decide

/-- C8 amended: with caching enabled and no `clear_cache`, at most one
embedding is computed per distinct `chunk_id` across any sequence of
`embed_chunks` calls, provided no single call's input contains two chunks
with the same UNCACHED `chunk_id` — repeating an id that is already
cached when the call starts is allowed; unconditionally, a chunk whose
`chunk_id` is already cached is served from the cache and never
re-embedded. -/
theorem C8_amended_at_most_once (embed : Str → Vec)
    (calls : List (List DocumentChunk))
    (hnd : callsMissNodup embed clear_cache calls = true) :
    (embedCalls embed clear_cache calls).2.Nodup
    ∧ ∀ (cache : Cache) (chunks : List DocumentChunk) (c : DocumentChunk),
        c ∈ chunks → (cacheLookup cache c.chunk_id).isSome →
        c.chunk_id ∉ (embed_chunks true embed cache chunks).computedIds := by
  refine ⟨(embedCalls_nodup embed calls clear_cache hnd).1, ?_⟩
  intro cache chunks c _ hsome hmem
  exact embed_chunks_computed_not_cached embed cache chunks c.chunk_id hmem hsome

/-- C8 amended, witness: the second call repeats — twice — a chunk whose
id the first call cached, yet only one embedding is computed over the
whole run; and a cached chunk is not re-embedded. -/
theorem C8_amended_at_most_once_witness :
    (embedCalls embedW clear_cache [[chunkW], [chunkW, chunkW]]).2
      = ["x".toList]
    ∧ (embedCalls embedW clear_cache [[chunkW], [chunkW, chunkW]]).2.Nodup
    ∧ "h1".toList ∉ (embed_chunks true embedW cacheW [chunkHitW]).computedIds := by
  have h := C8_amended_at_most_once embedW [[chunkW], [chunkW, chunkW]] (by decide)
  exact ⟨rfl, h.1, h.2 cacheW [chunkHitW] chunkHitW (by decide) (by decide)⟩

/-- C10: `embed_chunks` returns exactly one pair per input chunk — the
returned chunks are a permutation of the input of equal length — but the
output lists every cache hit (in input order) before every newly embedded
chunk (in input order), so whenever a cache miss precedes a cache hit in
the input, the output chunk order differs from the input order. -/
theorem C10_embed_chunks_order (b : Bool) (embed : Str → Vec) (cache : Cache)
    (chunks : List DocumentChunk) :
    ((embed_chunks b embed cache chunks).results.length = chunks.length)
    ∧ ((embed_chunks b embed cache chunks).results.map Prod.fst).Perm chunks
    ∧ (embed_chunks b embed cache chunks).results
        = (chunks.filter (fun c => isCacheHit b cache c)).map
            (fun c => (c, (cacheLookup cache c.chunk_id).getD []))
          ++ (chunks.filter (fun c => !(isCacheHit b cache c))).map
            (fun c => (c, embed c.content))
    ∧ ∀ m h : DocumentChunk, [m, h].Sublist chunks →
        isCacheHit b cache m = false → isCacheHit b cache h = true →
        (embed_chunks b embed cache chunks).results.map Prod.fst ≠ chunks := by
  have hmapfst : (embed_chunks b embed cache chunks).results.map Prod.fst
      = chunks.filter (fun c => isCacheHit b cache c)
        ++ chunks.filter (fun c => !(isCacheHit b cache c)) := by
    show ((chunks.filter _).map _ ++ (chunks.filter _).map _).map Prod.fst = _
    have e1 : (Prod.fst ∘ fun c : DocumentChunk =>
        (c, (cacheLookup cache c.chunk_id).getD [])) = id := rfl
    have e2 : (Prod.fst ∘ fun c : DocumentChunk => (c, embed c.content)) = id := rfl
    rw [List.map_append, List.map_map, List.map_map, e1, e2, List.map_id,
      List.map_id]
  have hperm : ((embed_chunks b embed cache chunks).results.map Prod.fst).Perm chunks := by
    rw [hmapfst]
    exact List.filter_append_perm _ chunks
  refine ⟨?_, hperm, rfl, ?_⟩
  · have := hperm.length_eq
    rwa [List.length_map] at this
  · intro m h hsub hm hh heq
    have hpw : (chunks.filter (fun c => isCacheHit b cache c)
        ++ chunks.filter (fun c => !(isCacheHit b cache c))).Pairwise
          (fun x y => isCacheHit b cache x = true ∨ isCacheHit b cache y = false) := by
      rw [List.pairwise_append]
      refine ⟨?_, ?_, ?_⟩
      · rw [List.pairwise_iff_forall_sublist]
        intro x y hxy
        exact Or.inl (List.of_mem_filter (hxy.subset (List.mem_cons_self x [y])))
      · rw [List.pairwise_iff_forall_sublist]
        intro x y hxy
        have := List.of_mem_filter (hxy.subset (by simp : y ∈ [x, y]))
        exact Or.inr (by simpa using this)
      · intro x hx y hy
        exact Or.inl (List.of_mem_filter hx)
    have hsub2 : [m, h].Sublist (chunks.filter (fun c => isCacheHit b cache c)
        ++ chunks.filter (fun c => !(isCacheHit b cache c))) := by
      rw [← hmapfst, heq]
      exact hsub
    have := List.pairwise_iff_forall_sublist.mp hpw hsub2
    rcases this with h1 | h1
    · rw [hm] at h1; simp at h1
    · rw [hh] at h1; simp at h1

/-- C10, witness: a cache miss followed by a cache hit is returned in the
reversed order. -/
theorem C10_embed_chunks_order_witness :
    (embed_chunks true embedW cacheW [chunkMissW, chunkHitW]).results.length = 2
    ∧ (embed_chunks true embedW cacheW [chunkMissW, chunkHitW]).results.map Prod.fst
        ≠ [chunkMissW, chunkHitW] := by
  have h := C10_embed_chunks_order true embedW cacheW [chunkMissW, chunkHitW]
  exact ⟨h.1, h.2.2.2 chunkMissW chunkHitW (List.Sublist.refl _) (by decide) (by decide)⟩
theorem foldl_preserve {σ α : Type} (f : σ → α → σ) (P : σ → Prop) (Q : α → Prop) :
    ∀ (l : List α), (∀ a ∈ l, Q a) →
      (∀ st a, Q a → P st → P (f st a)) →
      ∀ st, P st → P (l.foldl f st) := by
  intro l
  induction l with
  | nil => intro _ _ st h; exact h
  | cons a l ih =>
    intro hq hstep st h
    exact ih (fun b hb => hq b (List.mem_cons_of_mem a hb)) hstep (f st a)
      (hstep st a (hq a (List.mem_cons_self a l)) h)

theorem withId_chunk_id (digest : Str → Str) (c0 : DocumentChunk) :
    (withId digest c0).chunk_id
      = (withId digest c0).document_id
        ++ ('_' :: (Nat.repr (withId digest c0).chunk_index).toList)
        ++ ('_' :: (digest (withId digest c0).content).take 8) := rfl

theorem sentStep_chunk_id (cfg : ChunkConfig) (digest : Str → Str) (docId : Str)
    (meta : Metadata) (st : SentState) (s : Str)
    (hinv : ∀ c ∈ st.chunks,
      c.chunk_id = c.document_id ++ ('_' :: (Nat.repr c.chunk_index).toList)
        ++ ('_' :: (digest c.content).take 8) ∧ c.document_id = docId) :
    ∀ c ∈ (sentStep cfg digest docId meta st s).chunks,
      c.chunk_id = c.document_id ++ ('_' :: (Nat.repr c.chunk_index).toList)
        ++ ('_' :: (digest c.content).take 8) ∧ c.document_id = docId := by
  unfold sentStep
  split
  · intro c hc
    unfold closeChunk at hc
    simp only [List.mem_append, List.mem_singleton] at hc
    rcases hc with hc | hc
    · exact hinv c hc
    · subst hc
      exact ⟨rfl, rfl⟩
  · exact hinv

theorem chunk_sentences_chunk_id (cfg : ChunkConfig) (digest : Str → Str)
    (docId : Str) (meta : Metadata) (sentences : List Str) :
    ∀ c ∈ chunk_sentences cfg digest docId meta sentences,
      c.chunk_id = c.document_id ++ ('_' :: (Nat.repr c.chunk_index).toList)
        ++ ('_' :: (digest c.content).take 8) ∧ c.document_id = docId := by
  have hfold := foldl_preserve (sentStep cfg digest docId meta)
    (fun st => ∀ c ∈ st.chunks,
      c.chunk_id = c.document_id ++ ('_' :: (Nat.repr c.chunk_index).toList)
        ++ ('_' :: (digest c.content).take 8) ∧ c.document_id = docId)
    (fun _ => True) sentences (fun _ _ => trivial)
    (fun st s _ h => sentStep_chunk_id cfg digest docId meta st s h)
    ⟨[], [], 0, 0, 0⟩ (by intro c hc; cases hc)
  unfold chunk_sentences finalizeSent
  split
  · split
    · intro c hc
      simp only [List.mem_append, List.mem_singleton] at hc
      rcases hc with hc | hc
      · exact hfold c hc
      · subst hc
        exact ⟨rfl, rfl⟩
    · exact hfold
  · exact hfold

theorem chunk_by_characters_chunk_id (cfg : ChunkConfig) (digest : Str → Str)
    (docId : Str) (meta : Metadata) (t : Str) :
    ∀ c ∈ chunk_by_characters cfg digest docId meta t,
      c.chunk_id = c.document_id ++ ('_' :: (Nat.repr c.chunk_index).toList)
        ++ ('_' :: (digest c.content).take 8) ∧ c.document_id = docId := by
  intro c hc
  unfold chunk_by_characters at hc
  obtain ⟨jc, _, rfl⟩ := List.mem_map.mp hc
  exact ⟨rfl, rfl⟩

/-- C7: chunking is deterministic — the embedding of `chunk_text` is a pure
function of the configuration, digest function, text, document id and
metadata, so two runs produce identical chunk sequences — and every
produced chunk's `chunk_id` is exactly
`document_id + "_" + str(chunk_index) + "_" + digest(content)[:8]`, i.e.
derived only from the document id, the chunk index, and the 8-hex-digit
content digest. -/
theorem C7_chunk_id_deterministic (cfg : ChunkConfig) (digest : Str → Str)
    (text docId : Str) (meta : Metadata) :
    chunk_text cfg digest text docId meta = chunk_text cfg digest text docId meta
    ∧ ∀ c ∈ chunk_text cfg digest text docId meta,
        c.chunk_id = c.document_id ++ ('_' :: (Nat.repr c.chunk_index).toList)
          ++ ('_' :: (digest c.content).take 8) ∧ c.document_id = docId := by
  refine ⟨rfl, ?_⟩
  intro c hc
  unfold chunk_text at hc
  split at hc
  · cases hc
  · split at hc
    · exact chunk_sentences_chunk_id cfg digest docId meta _ c hc
    · exact chunk_by_characters_chunk_id cfg digest docId meta _ c hc

/-- C7, witness: the single chunk of a small document carries the
prescribed chunk id. -/
theorem C7_chunk_id_witness :
    (⟨"d1_0_01234567".toList, "d1".toList, "Hi.".toList, 0, 0, 3,
        ([] : Metadata)⟩ : DocumentChunk).chunk_id
      = "d1".toList ++ ('_' :: (Nat.repr 0).toList)
        ++ ('_' :: (digW "Hi.".toList).take 8) := by
  have h := (C7_chunk_id_deterministic cfgW digW "Hi.".toList "d1".toList []).2
    ⟨"d1_0_01234567".toList, "d1".toList, "Hi.".toList, 0, 0, 3, []⟩ (by decide)
  exact h.1
theorem joinSp_append_single : ∀ (l : List Str) (s : Str), l ≠ [] →
    joinSp (l ++ [s]) = joinSp l ++ ' ' :: s
  | [], _, h => absurd rfl h
  | [a], s, _ => rfl
  | a :: b :: t, s, _ => by
    show joinSp (a :: (b :: t ++ [s])) = (a ++ ' ' :: joinSp (b :: t)) ++ ' ' :: s
    have hbt : (b :: t) ++ [s] = b :: (t ++ [s]) := rfl
    calc joinSp (a :: (b :: t ++ [s]))
        = a ++ ' ' :: joinSp (b :: t ++ [s]) := by
          rw [hbt]
          rfl
      _ = a ++ ' ' :: (joinSp (b :: t) ++ ' ' :: s) := by
          rw [joinSp_append_single (b :: t) s (by simp)]
      _ = (a ++ ' ' :: joinSp (b :: t)) ++ ' ' :: s := by simp

theorem joinSp_length_append_single (l : List Str) (s : Str) (h : l ≠ []) :
    (joinSp (l ++ [s])).length = (joinSp l).length + 1 + s.length := by
  rw [joinSp_append_single l s h]
  simp [List.length_append]
  omega

theorem joinSp_length_mono : ∀ (r l : List Str),
    (joinSp l).length ≤ (joinSp (l ++ r)).length := by
  intro r
  induction r with
  | nil => intro l; simp
  | cons x r ih =>
    intro l
    have h1 : (joinSp l).length ≤ (joinSp (l ++ [x])).length := by
      rcases eq_or_ne l [] with rfl | hne
      · simp [joinSp]
      · rw [joinSp_length_append_single l x hne]
        omega
    have h2 := ih (l ++ [x])
    rw [List.append_assoc] at h2
    simpa using le_trans h1 h2

theorem sentFold_no_close (cfg : ChunkConfig) (digest : Str → Str)
    (docId : Str) (meta : Metadata) :
    ∀ (suf pre : List Str), pre ≠ [] →
      (joinSp (pre ++ suf)).length ≤ cfg.chunk_size →
      List.foldl (sentStep cfg digest docId meta)
          ⟨[], pre, (joinSp pre).length + 1, 0, 0⟩ suf
        = ⟨[], pre ++ suf, (joinSp (pre ++ suf)).length + 1, 0, 0⟩ := by
  intro suf
  induction suf with
  | nil => intro pre _ _; simp
  | cons s suf ih =>
    intro pre hne hbound
    have hsplit : pre ++ s :: suf = (pre ++ [s]) ++ suf := by simp
    have hstep : sentStep cfg digest docId meta
        ⟨[], pre, (joinSp pre).length + 1, 0, 0⟩ s
        = ⟨[], pre ++ [s], (joinSp (pre ++ [s])).length + 1, 0, 0⟩ := by
      have hle : (joinSp pre).length + 1 + s.length ≤ cfg.chunk_size := by
        have h1 : (joinSp (pre ++ [s])).length ≤ (joinSp (pre ++ s :: suf)).length := by
          have := joinSp_length_mono suf (pre ++ [s])
          rwa [← hsplit] at this
        rw [joinSp_length_append_single pre s hne] at h1
        omega
      have hno : ¬(cfg.chunk_size
          < (⟨[], pre, (joinSp pre).length + 1, 0, 0⟩ : SentState).size + s.length
          ∧ (⟨[], pre, (joinSp pre).length + 1, 0, 0⟩ : SentState).current ≠ []) := by
        rintro ⟨h1, -⟩
        have h1' : cfg.chunk_size < (joinSp pre).length + 1 + s.length := h1
        omega
      unfold sentStep
      rw [if_neg hno]
      show (⟨[], pre ++ [s], ((joinSp pre).length + 1) + s.length + 1, 0, 0⟩
        : SentState) = _
      simp only [SentState.mk.injEq]
      refine ⟨trivial, trivial, ?_, trivial, trivial⟩
      rw [joinSp_length_append_single pre s hne]
    rw [List.foldl_cons, hstep, ih (pre ++ [s]) (by simp) (by rw [← hsplit]; exact hbound)]
    rw [hsplit]
theorem chunk_sentences_short (cfg : ChunkConfig) (digest : Str → Str)
    (docId : Str) (meta : Metadata) (sentences : List Str)
    (hb : (joinSp sentences).length ≤ cfg.chunk_size)
    (hmin : (joinSp sentences).length < cfg.min_chunk_size) :
    chunk_sentences cfg digest docId meta sentences = [] := by
  unfold chunk_sentences
  cases sentences with
  | nil => simp [finalizeSent]
  | cons s rest =>
    have hstep1 : sentStep cfg digest docId meta ⟨[], [], 0, 0, 0⟩ s
        = ⟨[], [s], s.length + 1, 0, 0⟩ := by
      unfold sentStep
      rw [if_neg (by rintro ⟨-, hc⟩; exact hc rfl)]
      simp
    have hb' : (joinSp ([s] ++ rest)).length ≤ cfg.chunk_size := by
      simpa using hb
    have hfold := sentFold_no_close cfg digest docId meta rest [s] (by simp) hb'
    rw [List.foldl_cons, hstep1]
    have hjs : joinSp [s] = s := rfl
    rw [show (⟨[], [s], s.length + 1, 0, 0⟩ : SentState)
      = ⟨[], [s], (joinSp [s]).length + 1, 0, 0⟩ from by rw [hjs], hfold]
    unfold finalizeSent
    rw [if_pos (by simp), if_neg]
    show ¬ (cfg.min_chunk_size ≤ (joinSp ([s] ++ rest)).length)
    simp only [List.singleton_append]
    omega

theorem chunk_by_characters_short (cfg : ChunkConfig) (digest : Str → Str)
    (docId : Str) (meta : Metadata) (t : Str)
    (h : t.length < cfg.min_chunk_size) :
    chunk_by_characters cfg digest docId meta t = [] := by
  have hkept : List.filterMap (fun i =>
      if cfg.min_chunk_size ≤ ((t.drop i).take cfg.chunk_size).length then
        some (i, (t.drop i).take cfg.chunk_size)
      else none)
      ((List.range t.length).filter
        (fun i => i % (cfg.chunk_size - cfg.chunk_overlap) = 0)) = [] := by
    rw [List.filterMap_eq_nil_iff]
    intro i _
    rw [if_neg]
    intro hmin
    have hwin : (((t.drop i).take cfg.chunk_size)).length ≤ t.length := by
      simp only [List.length_take, List.length_drop]
      omega
    omega
  simp only [chunk_by_characters]
  rw [hkept]
  rfl

set_option maxHeartbeats 1000000 in
/-- C5 counterexample: with the default configuration, the non-empty text
`"Hello."` (6 characters, below `min_chunk_size = 100`) produces NO chunk
at all — not the claimed single chunk — in the sentence-preserving mode,
and likewise in the character-windowing mode. -/
theorem C5_short_text_dropped :
    chunk_text ({} : ChunkConfig) digW "Hello.".toList "d1".toList [] = []
    ∧ chunk_text { preserve_sentences := false } digW "Hello.".toList
        "d1".toList [] = []
    ∧ "Hello.".toList ≠ ([] : Str)
    ∧ (normalize_text "Hello.".toList).length
        < ({} : ChunkConfig).min_chunk_size := by
  refine ⟨by decide, by decide, by decide, by decide⟩

/-- C5 amended: a non-empty text whose normalized form stays below
`min_chunk_size` produces the EMPTY chunk list — the final short
accumulator is dropped by the minimum-size guard, with no final-chunk
exception — in the sentence-preserving mode and the character-windowing
mode alike, whenever the configuration is sane
(`min_chunk_size ≤ chunk_size`, `chunk_overlap < chunk_size`) and
rejoining the split sentences also stays below `min_chunk_size` (as for
any ordinary text, e.g. prose with spaces after punctuation). -/
theorem C5_amended_short_text_empty (cfg : ChunkConfig) (digest : Str → Str)
    (text docId : Str) (meta : Metadata)
    (h0 : text ≠ [])
    (h1 : cfg.min_chunk_size ≤ cfg.chunk_size)
    (h2 : (normalize_text text).length < cfg.min_chunk_size)
    (h3 : (joinSp (split_sentences (normalize_text text))).length
      < cfg.min_chunk_size)
    (_h4 : cfg.chunk_overlap < cfg.chunk_size) :
    chunk_text cfg digest text docId meta = [] := by
  unfold chunk_text
  rw [if_neg h0]
  by_cases hps : cfg.preserve_sentences = true
  · simp only [hps, if_true]
    exact chunk_sentences_short cfg digest docId meta _
      (le_trans (le_of_lt h3) h1) h3
  · simp only [hps, if_false]
    exact chunk_by_characters_short cfg digest docId meta _ h2

set_option maxHeartbeats 1000000 in
/-- C5 amended, witness at the text `"Hello."`, in both modes (default
configuration, and the default configuration with
`preserve_sentences=False`). -/
theorem C5_amended_witness :
    chunk_text ({} : ChunkConfig) digW "Hello.".toList "w-doc".toList [] = []
    ∧ chunk_text { preserve_sentences := false } digW "Hello.".toList
        "w-doc".toList [] = [] := by
  constructor
  · exact C5_amended_short_text_empty {} digW "Hello.".toList "w-doc".toList []
      (by decide) (by decide) (by decide) (by decide) (by decide)
  · exact C5_amended_short_text_empty { preserve_sentences := false } digW
      "Hello.".toList "w-doc".toList []
      (by decide) (by decide) (by decide) (by decide) (by decide)
/-- Maximum sentence length of a sentence list (0 when empty). -/
def maxSentLen (sentences : List Str) : Nat :=
  (sentences.map List.length).foldr max 0

/-- The provable chunk-length bound for `_chunk_sentences`: `chunk_size + 1`
for chunks grown by gated appends, or `2 * chunk_overlap + 1 + L` for a
chunk seeded from overlap retention plus the overflowing sentence, where
`L` bounds the sentence lengths. -/
def chunkLenBound (cfg : ChunkConfig) (L : Nat) : Nat :=
  max (cfg.chunk_size + 1) (2 * cfg.chunk_overlap + 1 + L)

/-- Inductive invariant of the `_chunk_sentences` loop: every emitted chunk
respects `chunkLenBound`, and the accumulator is empty, or was grown from
empty (`current_size` = joined length + 1), or was seeded from overlap
retention (`current_size` = joined length). -/
def sentInv (cfg : ChunkConfig) (L : Nat) (st : SentState) : Prop :=
  (∀ c ∈ st.chunks, c.content.length ≤ chunkLenBound cfg L)
  ∧ (st.current = [] ∧ st.size = 0
     ∨ ((joinSp st.current).length + 1 = st.size
        ∧ st.size ≤ chunkLenBound cfg L + 1 ∧ st.current ≠ [])
     ∨ ((joinSp st.current).length = st.size
        ∧ st.size ≤ chunkLenBound cfg L ∧ st.current ≠ []))

theorem le_maxSentLen : ∀ (sentences : List Str), ∀ s ∈ sentences,
    s.length ≤ maxSentLen sentences := by
  intro sentences
  induction sentences with
  | nil => intro s hs; cases hs
  | cons a l ih =>
    intro s hs
    rcases List.mem_cons.mp hs with rfl | hs
    · exact le_max_left _ _ |>.trans (le_of_eq rfl)
    · exact le_trans (ih s hs) (le_max_right _ _)

theorem overlapSeed_cases (cfg : ChunkConfig) (cur : List Str) (hne : cur ≠ []) :
    overlapSeed cfg cur = []
    ∨ (overlapSeed cfg cur ≠ []
       ∧ (joinSp (overlapSeed cfg cur)).length ≤ cfg.chunk_overlap * 2) := by
  unfold overlapSeed
  split
  · split
    · right
      constructor
      · intro hemp
        have hlen := List.length_drop (cur.length - 2) cur
        rw [hemp] at hlen
        have hpos : 0 < cur.length := List.length_pos.mpr hne
        simp at hlen
        omega
      · assumption
    · exact Or.inl rfl
  · exact Or.inl rfl

theorem sentStep_bound (cfg : ChunkConfig) (digest : Str → Str) (docId : Str)
    (meta : Metadata) (L : Nat) (st : SentState) (s : Str)
    (hs : s.length ≤ L) (hinv : sentInv cfg L st) :
    sentInv cfg L (sentStep cfg digest docId meta st s) := by
  obtain ⟨chs, cur, sz, idx, off⟩ := st
  obtain ⟨hchunks, hcur⟩ := hinv
  dsimp only at hchunks hcur
  have hB1 : cfg.chunk_size + 1 ≤ chunkLenBound cfg L := le_max_left _ _
  have hB2 : 2 * cfg.chunk_overlap + 1 + L ≤ chunkLenBound cfg L := le_max_right _ _
  unfold sentStep
  dsimp only
  by_cases hgate : (cfg.chunk_size < sz + s.length ∧ cur ≠ [])
  · rw [if_pos hgate]
    have hcne : cur ≠ [] := hgate.2
    have hjcur : (joinSp cur).length ≤ chunkLenBound cfg L := by
      rcases hcur with ⟨hc, _⟩ | ⟨hj, hb, _⟩ | ⟨hj, hb, _⟩
      · exact absurd hc hcne
      · omega
      · omega
    constructor
    · intro c hc
      simp only [closeChunk, List.mem_append, List.mem_singleton] at hc
      rcases hc with hc | hc
      · exact hchunks c hc
      · subst hc
        exact hjcur
    · rcases overlapSeed_cases cfg cur hcne with hseed | ⟨hsne, hslen⟩
      · right; left
        simp only [closeChunk, hseed]
        refine ⟨by simp [joinSp], ?_, by simp⟩
        simp only [joinSp, List.length_nil]
        omega
      · right; right
        simp only [closeChunk]
        refine ⟨?_, ?_, by simp⟩
        · rw [joinSp_length_append_single _ _ hsne]
          omega
        · omega
  · rw [if_neg hgate]
    constructor
    · exact hchunks
    · rcases hcur with ⟨hc, hsz⟩ | ⟨hj, hb, hne⟩ | ⟨hj, hb, hne⟩
      · right; left
        subst hc
        subst hsz
        refine ⟨by simp [joinSp], ?_, by simp⟩
        show 0 + s.length + 1 ≤ chunkLenBound cfg L + 1
        omega
      · have hle : sz + s.length ≤ cfg.chunk_size := by
          by_contra hlt
          push_neg at hlt
          exact hgate ⟨hlt, hne⟩
        right; left
        refine ⟨?_, ?_, by simp [hne]⟩
        · show (joinSp (cur ++ [s])).length + 1 = sz + s.length + 1
          rw [joinSp_length_append_single _ _ hne]
          omega
        · show sz + s.length + 1 ≤ chunkLenBound cfg L + 1
          omega
      · have hle : sz + s.length ≤ cfg.chunk_size := by
          by_contra hlt
          push_neg at hlt
          exact hgate ⟨hlt, hne⟩
        right; right
        refine ⟨?_, ?_, by simp [hne]⟩
        · show (joinSp (cur ++ [s])).length = sz + s.length + 1
          rw [joinSp_length_append_single _ _ hne]
          omega
        · show sz + s.length + 1 ≤ chunkLenBound cfg L
          omega
theorem finalizeSent_bound (cfg : ChunkConfig) (digest : Str → Str)
    (docId : Str) (meta : Metadata) (L : Nat) (st : SentState)
    (hinv : sentInv cfg L st) :
    ∀ c ∈ finalizeSent cfg digest docId meta st,
      c.content.length ≤ chunkLenBound cfg L := by
  obtain ⟨chs, cur, sz, idx, off⟩ := st
  obtain ⟨hchunks, hcur⟩ := hinv
  dsimp only at hchunks hcur
  unfold finalizeSent
  dsimp only
  by_cases hne : cur ≠ []
  · rw [if_pos hne]
    split
    · intro c hc
      rcases List.mem_append.mp hc with hc | hc
      · exact hchunks c hc
      · rw [List.mem_singleton] at hc
        subst hc
        show (joinSp cur).length ≤ chunkLenBound cfg L
        rcases hcur with ⟨hc', _⟩ | ⟨hj, hb, _⟩ | ⟨hj, hb, _⟩
        · exact absurd hc' hne
        · omega
        · omega
    · exact hchunks
  · rw [if_neg hne]
    exact hchunks

set_option maxHeartbeats 4000000 in
set_option maxRecDepth 4000 in
/-- C6 counterexample: with the default configuration (`chunk_size = 512`),
a 600-character text without sentence punctuation is one sentence, and
`chunk_text` in sentence-preserving mode returns a single chunk of 600
characters — exceeding `chunk_size`. -/
theorem C6_oversized_chunk :
    (chunk_text ({} : ChunkConfig) digW (List.replicate 600 'a')
        "d1".toList []).map (fun c => c.content.length) = [600]
    ∧ ({} : ChunkConfig).chunk_size < 600
    ∧ ({} : ChunkConfig).preserve_sentences = true := by
  refine ⟨by decide, by decide, by decide⟩

/-- C6 amended: in sentence-preserving mode, every chunk produced by
`chunk_text` has content length at most
`max (chunk_size + 1) (2 * chunk_overlap + 1 + L)`, where `L` is the
longest sentence of the normalized text: a chunk grown from an empty
accumulator by the close-before-overflow gate never exceeds
`chunk_size` (+1 for an off-by-one after overlap seeding), but a chunk
may be an oversized single sentence, or an overlap seed joined with the
overflowing sentence, so the claimed unconditional `chunk_size` bound
fails. -/
theorem C6_amended_length_bound (cfg : ChunkConfig) (digest : Str → Str)
    (text docId : Str) (meta : Metadata)
    (hps : cfg.preserve_sentences = true) :
    ∀ c ∈ chunk_text cfg digest text docId meta,
      c.content.length ≤ chunkLenBound cfg
        (maxSentLen (split_sentences (normalize_text text))) := by
  intro c hc
  unfold chunk_text at hc
  by_cases h0 : text = []
  · rw [if_pos h0] at hc
    cases hc
  · rw [if_neg h0] at hc
    simp only [hps, if_true] at hc
    have hinv : sentInv cfg (maxSentLen (split_sentences (normalize_text text)))
        (List.foldl (sentStep cfg digest docId meta) ⟨[], [], 0, 0, 0⟩
          (split_sentences (normalize_text text))) := by
      apply foldl_preserve (sentStep cfg digest docId meta)
        (sentInv cfg (maxSentLen (split_sentences (normalize_text text))))
        (fun s => s.length ≤ maxSentLen (split_sentences (normalize_text text)))
        (split_sentences (normalize_text text))
        (le_maxSentLen _)
        (fun st s hq hp => sentStep_bound cfg digest docId meta _ st s hq hp)
        ⟨[], [], 0, 0, 0⟩
      exact ⟨fun c hc => absurd hc (List.not_mem_nil c), Or.inl ⟨rfl, rfl⟩⟩
    exact finalizeSent_bound cfg digest docId meta _ _ hinv c hc

/-- C6 amended, witness: a small sentence-mode run whose single chunk
respects the bound. -/
theorem C6_amended_witness :
    (⟨"d1_0_01234567".toList, "d1".toList, "aaaa.".toList, 0, 0, 5,
        ([] : Metadata)⟩ : DocumentChunk).content.length
      ≤ chunkLenBound cfgW
          (maxSentLen (split_sentences (normalize_text "aaaa.".toList))) := by
  exact C6_amended_length_bound cfgW digW "aaaa.".toList "d1".toList [] rfl
    ⟨"d1_0_01234567".toList, "d1".toList, "aaaa.".toList, 0, 0, 5, []⟩
    (by decide)
